import Mathlib

/-!
Verification of the natural-language specification of `blog_generator.py`
against a shallow embedding of its code.

Strings are modelled as `List Char` (wrapped back into `String` at the
interfaces).  Python regular-expression substitutions are embedded as
left-to-right scanners; scanners that skip ahead by more than one character
take an explicit fuel argument (always called with the length of the input,
which is an upper bound on the number of scan steps) so that every
definition reduces in the kernel.  The whitespace class models the ASCII
part of Python's `\s`, and word characters model the ASCII part of `\w`.
-/

/-- ASCII model of Python's whitespace class `\s`. -/
def pySpace (c : Char) : Bool :=
  c == ' ' || c == '\t' || c == '\n' || c == '\r' || c == '\x0b' || c == '\x0c'

/-- ASCII model of Python's word-character class `\w`. -/
def wordChar (c : Char) : Bool :=
  c.isAlpha || c.isDigit || c == '_'

/-- Drop the maximal leading run of characters satisfying `p`. -/
def dropWhileB (p : Char → Bool) : List Char → List Char
  | [] => []
  | c :: cs => if p c then dropWhileB p cs else c :: cs

/-- Maximal leading run of characters satisfying `p`. -/
def takeWhileB (p : Char → Bool) : List Char → List Char
  | [] => []
  | c :: cs => if p c then c :: takeWhileB p cs else []

def nlChar (c : Char) : Bool := c == '\n'

def dropWsL : List Char → List Char := dropWhileB pySpace

def dropNl : List Char → List Char := dropWhileB nlChar

def allWsL (l : List Char) : Bool := l.all pySpace

def fenceHtml : List Char := "```html".data

def fence3 : List Char := "```".data

/-- Line 46: `re.sub(r'```html\s*', '', content)` — every occurrence of
the opening fence (plus following whitespace) is removed, scanning left to
right. -/
def sub1 : Nat → List Char → List Char
  | 0, l => l
  | _ + 1, [] => []
  | fuel + 1, c :: cs =>
    if fenceHtml.isPrefixOf (c :: cs) then sub1 fuel (dropWsL (cs.drop 6))
    else c :: sub1 fuel cs

/-- Line 47: `re.sub(r'```\s*$', '', content)` — a closing fence whose tail
is all whitespace (so that `$` can match) is removed together with that
tail; the leftmost such fence wins. -/
def sub2 : List Char → List Char
  | [] => []
  | c :: cs =>
    if fence3.isPrefixOf (c :: cs) && allWsL (cs.drop 2) then []
    else c :: sub2 cs

/-- Search for the closing `**` of a lazy `\*\*(.*?)\*\*` match: returns the
middle (which may not contain a newline, since `.` does not match `\n`) and
the characters after the closing marker. -/
def findClose2 : List Char → Option (List Char × List Char)
  | [] => none
  | [_] => none
  | c1 :: c2 :: cs =>
    if c1 = '*' ∧ c2 = '*' then some ([], cs)
    else if c1 = '\n' then none
    else (findClose2 (c2 :: cs)).map fun p => (c1 :: p.1, p.2)

/-- Search for the closing `*` of a lazy `\*(.*?)\*` match. -/
def findClose1 : List Char → Option (List Char × List Char)
  | [] => none
  | c :: cs =>
    if c = '*' then some ([], cs)
    else if c = '\n' then none
    else (findClose1 cs).map fun p => (c :: p.1, p.2)

def strongOpen : List Char := "<strong>".data

def strongClose : List Char := "</strong>".data

/-- Line 50: `re.sub(r'\*\*(.*?)\*\*', r'<strong>\1</strong>', content)`. -/
def sub3 : Nat → List Char → List Char
  | 0, l => l
  | _ + 1, [] => []
  | fuel + 1, c :: cs =>
    if c = '*' ∧ cs.head? = some '*' then
      match findClose2 cs.tail with
      | some (mid, rest) => strongOpen ++ mid ++ strongClose ++ sub3 fuel rest
      | none => c :: sub3 fuel cs
    else c :: sub3 fuel cs

def emOpen : List Char := "<em>".data

def emClose : List Char := "</em>".data

/-- Line 51: `re.sub(r'\*(.*?)\*', r'<em>\1</em>', content)`. -/
def sub4 : Nat → List Char → List Char
  | 0, l => l
  | _ + 1, [] => []
  | fuel + 1, c :: cs =>
    if c = '*' then
      match findClose1 cs with
      | some (mid, rest) => emOpen ++ mid ++ emClose ++ sub4 fuel rest
      | none => c :: sub4 fuel cs
    else c :: sub4 fuel cs

/-- Python `str.replace`: replace all non-overlapping occurrences of `pat`
scanning left to right (lines 54-56). -/
def replaceAll (pat rep : List Char) : Nat → List Char → List Char
  | 0, l => l
  | _ + 1, [] => []
  | fuel + 1, c :: cs =>
    if pat.isPrefixOf (c :: cs) then rep ++ replaceAll pat rep fuel ((c :: cs).drop pat.length)
    else c :: replaceAll pat rep fuel cs

/-- Line 59: `re.sub(r'\n{3,}', '\n\n', content)` — every maximal run of at
least three newlines becomes exactly two. -/
def sub6 : Nat → List Char → List Char
  | 0, l => l
  | _ + 1, [] => []
  | fuel + 1, c :: cs =>
    if c = '\n' ∧ ['\n', '\n'].isPrefixOf cs then '\n' :: '\n' :: sub6 fuel (dropNl cs)
    else c :: sub6 fuel cs

/-- Does `^\s*[-*]\s` match here (with `\s*` greedy, only the maximal
whitespace run can be followed by the marker)? -/
def listMarkerAt (l : List Char) : Bool :=
  match dropWsL l with
  | m :: d :: _ => (m == '-' || m == '*') && pySpace d
  | _ => false

/-- Is the single `\s` character consumed after the marker a newline (this
decides whether the position after the match is a line start)? -/
def secondIsNl (l : List Char) : Bool :=
  match dropWsL l with
  | _ :: d :: _ => d == '\n'
  | _ => false

/-- Line 62: `re.sub(r'^\s*[-*]\s', '', content, flags=re.MULTILINE)`.
The Boolean argument records whether the current position is a line start. -/
def sub7 : Nat → Bool → List Char → List Char
  | 0, _, l => l
  | _ + 1, _, [] => []
  | fuel + 1, atStart, c :: cs =>
    if atStart ∧ listMarkerAt (c :: cs) then
      sub7 fuel (secondIsNl (c :: cs)) ((dropWsL (c :: cs)).drop 2)
    else c :: sub7 fuel (c == '\n') cs

/-- Lines 65-66: `re.sub(r'<br\s*/>', '<br>', ...)` and the `<hr>` variant;
`a`/`b` are the two tag letters. -/
def sub8 (a b : Char) : Nat → List Char → List Char
  | 0, l => l
  | _ + 1, [] => []
  | fuel + 1, c :: cs =>
    if c = '<' ∧ [a, b].isPrefixOf cs ∧ ['/', '>'].isPrefixOf (dropWsL (cs.drop 2)) then
      '<' :: a :: b :: '>' :: sub8 a b fuel ((dropWsL (cs.drop 2)).drop 2)
    else c :: sub8 a b fuel cs

def firstIsWs : List Char → Bool
  | [] => false
  | c :: _ => pySpace c

/-- Line 69: `re.sub(r'>\s+<', '>\n<', content)`. -/
def sub9 : Nat → List Char → List Char
  | 0, l => l
  | _ + 1, [] => []
  | fuel + 1, c :: cs =>
    if c = '>' ∧ firstIsWs cs ∧ (dropWsL cs).head? = some '<' then
      '>' :: '\n' :: '<' :: sub9 fuel (dropWsL cs).tail
    else c :: sub9 fuel cs

/-- Python `str.strip()` (ASCII whitespace). -/
def stripChars (l : List Char) : List Char := (dropWsL (dropWsL l).reverse).reverse

def stage1 (l : List Char) : List Char := sub1 l.length l

def stage2 (l : List Char) : List Char := sub2 l

def stage3 (l : List Char) : List Char := sub3 l.length l

def stage4 (l : List Char) : List Char := sub4 l.length l

def stage5 (l : List Char) : List Char := replaceAll "&amp;".data "&".data l.length l

def stage6 (l : List Char) : List Char := replaceAll "&lt;".data "<".data l.length l

def stage7 (l : List Char) : List Char := replaceAll "&gt;".data ">".data l.length l

def stage8 (l : List Char) : List Char := sub6 l.length l

def stage9 (l : List Char) : List Char := sub7 l.length true l

def stage10 (l : List Char) : List Char := sub8 'b' 'r' l.length l

def stage11 (l : List Char) : List Char := sub8 'h' 'r' l.length l

def stage12 (l : List Char) : List Char := sub9 l.length l

/-- The whole body of `preprocess_content` (lines 42-71), list level. -/
def preprocessL (l : List Char) : List Char :=
  stripChars (stage12 (stage11 (stage10 (stage9 (stage8 (stage7 (stage6
    (stage5 (stage4 (stage3 (stage2 (stage1 l))))))))))))

/-- `preprocess_content` from the source. -/
def preprocess_content (s : String) : String := String.mk (preprocessL s.data)

/-- The fence-stripping transformation of lines 46-47 alone. -/
def fenceStripL (l : List Char) : List Char := stage2 (stage1 l)

def fenceStrip (s : String) : String := String.mk (fenceStripL s.data)

/-- `content` contains three consecutive newlines somewhere. -/
def hasNl3 : List Char → Bool
  | [] => false
  | c :: cs => ['\n', '\n', '\n'].isPrefixOf (c :: cs) || hasNl3 cs

/-- Python's substring test (`pat in s`). -/
def isInfixOfB (pat : List Char) : List Char → Bool
  | [] => pat.isEmpty
  | c :: cs => pat.isPrefixOf (c :: cs) || isInfixOfB pat cs

/-- Python `str.count` with a non-empty needle: non-overlapping occurrences,
scanning left to right. -/
def pyCount (pat : List Char) : Nat → List Char → Nat
  | 0, _ => 0
  | _ + 1, [] => 0
  | fuel + 1, c :: cs =>
    if pat.isPrefixOf (c :: cs) then 1 + pyCount pat fuel ((c :: cs).drop pat.length)
    else pyCount pat fuel cs

/-- The backlink substring counted on line 116. -/
def backlinkNeedle : List Char := "href=\"https://shrigbrothersglobal.com".data

def backlinkCount (s : String) : Nat := pyCount backlinkNeedle s.data.length s.data

/-- The default stylesheet of lines 101-112, exactly as in the source. -/
def styleTemplate : String :=
  "\n<style>\n    body \x7b font-family: Arial, sans-serif; line-height: 1.8; margin: 0; background-color: #ffffff; color: #000000; \x7d\n    h1 \x7b font-size: 2.5rem; margin-top: 20px; border-bottom: 2px solid #000000; padding-bottom: 10px; \x7d\n    h2 \x7b font-size: 2rem; margin-top: 30px; border-bottom: 1px solid #000000; padding-bottom: 5px; color: #000000; \x7d\n    p \x7b margin: 15px 0; \x7d\n    ul \x7b margin: 10px 0; padding-left: 20px; \x7d\n    ul li \x7b margin-bottom: 10px; list-style-type: disc; \x7d\n    a \x7b color: #000000; text-decoration: underline; \x7d\n    .callout \x7b margin: 30px 0; padding: 20px; background-color: #f1f1f1; border: 1px solid #000000; text-align: center; \x7d\n</style>\n"

/-- Lines 97-113: preprocess the model response and prepend the default
stylesheet when no `<style>` block is present. -/
def processedContent (response : String) : String :=
  let content := preprocess_content response
  if isInfixOfB "<style>".data content.data then content
  else styleTemplate ++ content

inductive AttemptResult where
  | accept : String → AttemptResult
  | regenerate : AttemptResult
deriving DecidableEq

/-- One generation attempt, lines 92-120: the validation gate either
returns the processed content or asks for a full regeneration. -/
def attemptOnce (response : String) : AttemptResult :=
  if backlinkCount (processedContent response) < 20 then AttemptResult.regenerate
  else AttemptResult.accept (processedContent response)

/-- `generate_blog` (lines 73-124).  `send i` is the model's reply to the
`i`-th request (an exception is modelled as `Except.error`, caught by the
handler of lines 122-124 which returns `None`); the recursion of line 118
is bounded by an explicit fuel, with `none` meaning that the call has not
returned within `fuel` requests. -/
def generate_blog (send : Nat → Except String String) : Nat → Nat → Option String
  | 0, _ => none
  | fuel + 1, i =>
    match send i with
    | Except.error _ => none
    | Except.ok text =>
      match attemptOnce text with
      | AttemptResult.accept c => some c
      | AttemptResult.regenerate => generate_blog send fuel (i + 1)

/-- Number of generation requests issued within `fuel` recursion steps. -/
def generateBlogRequests (resp : Nat → String) : Nat → Nat → Nat
  | 0, _ => 0
  | fuel + 1, i =>
    match attemptOnce (resp i) with
    | AttemptResult.accept _ => 1
    | AttemptResult.regenerate => 1 + generateBlogRequests resp fuel (i + 1)

def keepChar (c : Char) : Bool := wordChar c || pySpace c || c == '-'

def runChar (c : Char) : Bool := c == '-' || pySpace c

def hyphChar (c : Char) : Bool := c == '-'

def dropRun : List Char → List Char := dropWhileB runChar

def dropHyph : List Char → List Char := dropWhileB hyphChar

/-- Line 35, first part: `re.sub(r'[-\s]+', '-', safe_title)` — every
maximal run of hyphens/whitespace becomes a single hyphen. -/
def collapseRuns : Nat → List Char → List Char
  | 0, l => l
  | _ + 1, [] => []
  | fuel + 1, c :: cs =>
    if runChar c then '-' :: collapseRuns fuel (dropRun cs)
    else c :: collapseRuns fuel cs

/-- Python `str.strip('-')`. -/
def stripHyphens (l : List Char) : List Char := (dropHyph (dropHyph l).reverse).reverse

/-- Lines 34-35: the slug derived from a title by `save_blog`. -/
def slugify (t : String) : String :=
  String.mk (stripHyphens (collapseRuns (t.data.filter keepChar).length (t.data.filter keepChar)))

/-- Line 37: the output path `Generated Blogs/<slug>.html`. -/
def savePath (t : String) : String :=
  String.mk ("Generated Blogs/".data ++ (slugify t).data ++ ".html".data)

/-- Lines 28-39: `save_blog` unconditionally writes `content` to the path
derived from `title`; the write is modelled as the `(path, content)` pair. -/
def save_blog (title content : String) : String × String := (savePath title, content)

/-- Python `str.strip()` on a `String`. -/
def stripStr (s : String) : String := String.mk (stripChars s.data)

/-- Lines 133-144: the per-title loop of `main`.  `gen` is the result of
`generate_blog` for a given (stripped) title; the returned list is the
sequence of file writes performed by the run. -/
def mainWrites (gen : String → Option String) : List String → List (String × String)
  | [] => []
  | t :: ts =>
    if stripStr t = "" then mainWrites gen ts
    else
      match gen (stripStr t) with
      | none => mainWrites gen ts
      | some c => save_blog (stripStr t) c :: mainWrites gen ts

/-- Characters on which every preprocessing rule is inert. -/
def plainChar (c : Char) : Bool :=
  !(c == '`' || c == '*' || c == '&' || c == '-' || c == '<' || c == '>')

/-- A syntactic condition under which `preprocess_content` fixes its input:
no character that can start or feed a rewrite rule, no run of three
newlines, and no leading or trailing whitespace. -/
def preprocessStable (l : List Char) : Bool :=
  l.all plainChar && !hasNl3 l && (stripChars l == l)

def repList (n : Nat) (l : List Char) : List Char :=
  match n with
  | 0 => []
  | n + 1 => l ++ repList n l

/-- A processed content with exactly 19 backlink occurrences. -/
def content19 : String := String.mk ("<style>".data ++ repList 19 backlinkNeedle)

/-- A processed content with exactly 20 backlink occurrences. -/
def content20 : String := String.mk ("<style>".data ++ repList 20 backlinkNeedle)

/-! ### Generic helper lemmas -/

theorem dropWhileB_mem {p : Char → Bool} {c : Char} :
    ∀ {l : List Char}, c ∈ dropWhileB p l → c ∈ l
  | [], h => h
  | x :: xs, h => by
    by_cases hx : p x
    · simp only [dropWhileB, hx, if_true] at h
      exact List.mem_cons_of_mem x (dropWhileB_mem h)
    · simpa [dropWhileB, hx] using h

theorem mem_dropWhileB {p : Char → Bool} {c : Char} (hc : p c = false) :
    ∀ {l : List Char}, c ∈ l → c ∈ dropWhileB p l
  | [], h => h
  | x :: xs, h => by
    by_cases hx : p x
    · have hne : c ≠ x := fun e => by rw [e] at hc; rw [hx] at hc; cases hc
      simp only [dropWhileB, hx, if_true]
      exact mem_dropWhileB hc (List.mem_of_ne_of_mem hne h)
    · simpa [dropWhileB, hx] using h

theorem head?_dropWhileB {p : Char → Bool} {c : Char} :
    ∀ {l : List Char}, (dropWhileB p l).head? = some c → p c = false
  | [], h => by cases h
  | x :: xs, h => by
    by_cases hx : p x
    · simp only [dropWhileB, hx, if_true] at h
      exact head?_dropWhileB h
    · simp only [dropWhileB, hx, Bool.false_eq_true, if_false, List.head?_cons,
        Option.some.injEq] at h
      subst h
      exact Bool.eq_false_iff.mpr hx

theorem dropWhileB_length {p : Char → Bool} :
    ∀ (l : List Char), (dropWhileB p l).length ≤ l.length
  | [] => le_refl 0
  | x :: xs => by
    by_cases hx : p x
    · simp only [dropWhileB, hx, if_true]
      exact le_trans (dropWhileB_length xs) (Nat.le_succ _)
    · simp [dropWhileB, hx]

theorem isPrefixOf_cons_ne {p c : Char} (ps cs : List Char) (h : c ≠ p) :
    (p :: ps).isPrefixOf (c :: cs) = false := by
  simp only [List.isPrefixOf, Bool.and_eq_false_iff]
  left
  exact beq_eq_false_iff_ne.mpr (fun e => h e.symm)

/-! ### Identity of the preprocessing stages on inert input -/

theorem sub1_id : ∀ (fuel : Nat) (l : List Char), (∀ x ∈ l, x ≠ '`') → sub1 fuel l = l := by
  intro fuel
  induction fuel with
  | zero => intro l _; rfl
  | succ fuel ih =>
    intro l h
    match l with
    | [] => rfl
    | c :: cs =>
      have hc : c ≠ '`' := h c (List.mem_cons_self c cs)
      have hpre : fenceHtml.isPrefixOf (c :: cs) = false := isPrefixOf_cons_ne _ _ hc
      simp only [sub1, hpre, Bool.false_eq_true, if_false, List.cons.injEq, true_and]
      exact ih cs (fun x hx => h x (List.mem_cons_of_mem c hx))

theorem sub2_id : ∀ (l : List Char), (∀ x ∈ l, x ≠ '`') → sub2 l = l := by
  intro l
  induction l with
  | nil => intro _; rfl
  | cons c cs ih =>
    intro h
    have hc : c ≠ '`' := h c (List.mem_cons_self c cs)
    have hpre : fence3.isPrefixOf (c :: cs) = false := isPrefixOf_cons_ne _ _ hc
    simp only [sub2, hpre, Bool.false_and, Bool.false_eq_true, if_false, List.cons.injEq, true_and]
    exact ih (fun x hx => h x (List.mem_cons_of_mem c hx))

theorem sub3_id : ∀ (fuel : Nat) (l : List Char), (∀ x ∈ l, x ≠ '*') → sub3 fuel l = l := by
  intro fuel
  induction fuel with
  | zero => intro l _; rfl
  | succ fuel ih =>
    intro l h
    match l with
    | [] => rfl
    | c :: cs =>
      have hc : c ≠ '*' := h c (List.mem_cons_self c cs)
      simp only [sub3, hc, false_and, if_false, List.cons.injEq, true_and]
      exact ih cs (fun x hx => h x (List.mem_cons_of_mem c hx))

theorem sub4_id : ∀ (fuel : Nat) (l : List Char), (∀ x ∈ l, x ≠ '*') → sub4 fuel l = l := by
  intro fuel
  induction fuel with
  | zero => intro l _; rfl
  | succ fuel ih =>
    intro l h
    match l with
    | [] => rfl
    | c :: cs =>
      have hc : c ≠ '*' := h c (List.mem_cons_self c cs)
      simp only [sub4, hc, if_false, List.cons.injEq, true_and]
      exact ih cs (fun x hx => h x (List.mem_cons_of_mem c hx))

theorem replaceAll_id (p : Char) (ps rep : List Char) :
    ∀ (fuel : Nat) (l : List Char), (∀ x ∈ l, x ≠ p) → replaceAll (p :: ps) rep fuel l = l := by
  intro fuel
  induction fuel with
  | zero => intro l _; rfl
  | succ fuel ih =>
    intro l h
    match l with
    | [] => rfl
    | c :: cs =>
      have hc : c ≠ p := h c (List.mem_cons_self c cs)
      have hpre : (p :: ps).isPrefixOf (c :: cs) = false := isPrefixOf_cons_ne _ _ hc
      simp only [replaceAll, hpre, Bool.false_eq_true, if_false, List.cons.injEq, true_and]
      exact ih cs (fun x hx => h x (List.mem_cons_of_mem c hx))

theorem sub6_id : ∀ (fuel : Nat) (l : List Char), hasNl3 l = false → sub6 fuel l = l := by
  intro fuel
  induction fuel with
  | zero => intro l _; rfl
  | succ fuel ih =>
    intro l h
    match l with
    | [] => rfl
    | c :: cs =>
      simp only [hasNl3, Bool.or_eq_false_iff] at h
      have hcond : ¬(c = '\n' ∧ (['\n', '\n'].isPrefixOf cs) = true) := by
        rintro ⟨rfl, hp⟩
        have : (['\n', '\n', '\n'].isPrefixOf ('\n' :: cs)) = true := by
          simp [List.isPrefixOf] at hp ⊢
          exact hp
        rw [this] at h
        cases h.1
      simp only [sub6, hcond, if_false, List.cons.injEq, true_and]
      exact ih cs h.2

theorem listMarkerAt_eq_false {l : List Char}
    (h : ∀ x ∈ l, x ≠ '-' ∧ x ≠ '*') : listMarkerAt l = false := by
  unfold listMarkerAt
  cases hd : dropWsL l with
  | nil => rfl
  | cons m t =>
    cases t with
    | nil => rfl
    | cons d t2 =>
      have hm0 : m ∈ dropWsL l := by rw [hd]; exact List.mem_cons_self m _
      have hm : m ∈ l := dropWhileB_mem hm0
      have hne := h m hm
      simp only [beq_eq_false_iff_ne, Bool.and_eq_false_iff, Bool.or_eq_false_iff]
      left
      exact ⟨hne.1, hne.2⟩

theorem sub7_id : ∀ (fuel : Nat) (b : Bool) (l : List Char),
    (∀ x ∈ l, x ≠ '-' ∧ x ≠ '*') → sub7 fuel b l = l := by
  intro fuel
  induction fuel with
  | zero => intro b l _; rfl
  | succ fuel ih =>
    intro b l h
    match l with
    | [] => rfl
    | c :: cs =>
      have hm : listMarkerAt (c :: cs) = false := listMarkerAt_eq_false h
      have hcond : ¬(b = true ∧ (listMarkerAt (c :: cs)) = true) := by
        rintro ⟨_, hmm⟩
        rw [hm] at hmm
        cases hmm
      simp only [sub7, hm, Bool.false_eq_true, and_false, if_false, List.cons.injEq, true_and]
      exact ih _ cs (fun x hx => h x (List.mem_cons_of_mem c hx))

theorem sub8_id (a b : Char) :
    ∀ (fuel : Nat) (l : List Char), (∀ x ∈ l, x ≠ '<') → sub8 a b fuel l = l := by
  intro fuel
  induction fuel with
  | zero => intro l _; rfl
  | succ fuel ih =>
    intro l h
    match l with
    | [] => rfl
    | c :: cs =>
      have hc : c ≠ '<' := h c (List.mem_cons_self c cs)
      simp only [sub8, hc, false_and, if_false, List.cons.injEq, true_and]
      exact ih cs (fun x hx => h x (List.mem_cons_of_mem c hx))

theorem sub9_id : ∀ (fuel : Nat) (l : List Char), (∀ x ∈ l, x ≠ '>') → sub9 fuel l = l := by
  intro fuel
  induction fuel with
  | zero => intro l _; rfl
  | succ fuel ih =>
    intro l h
    match l with
    | [] => rfl
    | c :: cs =>
      have hc : c ≠ '>' := h c (List.mem_cons_self c cs)
      simp only [sub9, hc, false_and, if_false, List.cons.injEq, true_and]
      exact ih cs (fun x hx => h x (List.mem_cons_of_mem c hx))

theorem plainChar_spec {c : Char} (h : plainChar c = true) :
    c ≠ '`' ∧ c ≠ '*' ∧ c ≠ '&' ∧ c ≠ '-' ∧ c ≠ '<' ∧ c ≠ '>' := by
  simp only [plainChar, Bool.not_eq_true', Bool.or_eq_false_iff, beq_eq_false_iff_ne] at h
  exact ⟨h.1.1.1.1.1, h.1.1.1.1.2, h.1.1.1.2, h.1.1.2, h.1.2, h.2⟩

theorem preprocessL_fixed {l : List Char} (h : preprocessStable l = true) : preprocessL l = l := by
  have h' := h
  simp only [preprocessStable, Bool.and_eq_true, List.all_eq_true, Bool.not_eq_true',
    beq_iff_eq] at h'
  obtain ⟨⟨hplain, hnl⟩, hstrip⟩ := h'
  have h1 : stage1 l = l := sub1_id _ _ (fun x hx => (plainChar_spec (hplain x hx)).1)
  have h2 : stage2 l = l := sub2_id _ (fun x hx => (plainChar_spec (hplain x hx)).1)
  have h3 : stage3 l = l := sub3_id _ _ (fun x hx => (plainChar_spec (hplain x hx)).2.1)
  have h4 : stage4 l = l := sub4_id _ _ (fun x hx => (plainChar_spec (hplain x hx)).2.1)
  have h5 : stage5 l = l := replaceAll_id _ _ _ _ _ (fun x hx => (plainChar_spec (hplain x hx)).2.2.1)
  have h6 : stage6 l = l := replaceAll_id _ _ _ _ _ (fun x hx => (plainChar_spec (hplain x hx)).2.2.1)
  have h7 : stage7 l = l := replaceAll_id _ _ _ _ _ (fun x hx => (plainChar_spec (hplain x hx)).2.2.1)
  have h8 : stage8 l = l := sub6_id _ _ hnl
  have h9 : stage9 l = l := sub7_id _ _ _
    (fun x hx => ⟨(plainChar_spec (hplain x hx)).2.2.2.1, (plainChar_spec (hplain x hx)).2.1⟩)
  have h10 : stage10 l = l := sub8_id _ _ _ _ (fun x hx => (plainChar_spec (hplain x hx)).2.2.2.2.1)
  have h11 : stage11 l = l := sub8_id _ _ _ _ (fun x hx => (plainChar_spec (hplain x hx)).2.2.2.2.1)
  have h12 : stage12 l = l := sub9_id _ _ (fun x hx => (plainChar_spec (hplain x hx)).2.2.2.2.2)
  unfold preprocessL
  rw [h1, h2, h3, h4, h5, h6, h7, h8, h9, h10, h11, h12, hstrip]

/-! ### The newline-collapsing stage never leaves three consecutive newlines -/

theorem sub6_head? : ∀ (fuel : Nat) (l : List Char), (sub6 fuel l).head? = l.head? := by
  intro fuel l
  match fuel, l with
  | 0, l => rfl
  | _ + 1, [] => rfl
  | fuel + 1, c :: cs =>
    by_cases hcond : c = '\n' ∧ (['\n', '\n'].isPrefixOf cs) = true
    · simp only [sub6, hcond, and_self, if_true, List.head?_cons, hcond.1]
    · simp only [sub6, hcond, if_false, List.head?_cons]

theorem nl1_head {t : List Char} (h : (['\n'].isPrefixOf t) = true) : t.head? = some '\n' := by
  cases t with
  | nil => simp [List.isPrefixOf] at h
  | cons x xs =>
    simp only [List.isPrefixOf, Bool.and_eq_true, beq_iff_eq] at h
    rw [h.1]
    rfl

theorem head_not_nl {t : List Char} (h : t.head? ≠ some '\n') :
    (['\n'].isPrefixOf t) = false ∧ (['\n', '\n'].isPrefixOf t) = false := by
  cases t with
  | nil => simp [List.isPrefixOf]
  | cons x xs =>
    have hx : x ≠ '\n' := by
      intro e
      exact h (by rw [e]; rfl)
    have hbx : ('\n' == x) = false := beq_eq_false_iff_ne.mpr (fun e => hx e.symm)
    constructor
    · simp [List.isPrefixOf, hbx]
    · simp [List.isPrefixOf, hbx]

theorem sub6_nl2 : ∀ (fuel : Nat) (l : List Char),
    (['\n', '\n'].isPrefixOf (sub6 fuel l)) = true → (['\n', '\n'].isPrefixOf l) = true := by
  intro fuel l
  match fuel, l with
  | 0, l => exact fun h => h
  | _ + 1, [] => intro h; simp [sub6, List.isPrefixOf] at h
  | fuel + 1, c :: cs =>
    intro h
    by_cases hcond : c = '\n' ∧ (['\n', '\n'].isPrefixOf cs) = true
    · cases cs with
      | nil => simp [List.isPrefixOf] at hcond
      | cons d ds =>
        have hd : d = '\n' := by
          have := hcond.2
          simp only [List.isPrefixOf, Bool.and_eq_true, beq_iff_eq] at this
          exact this.1.symm
        simp [List.isPrefixOf, hcond.1, hd]
    · simp only [sub6, hcond, if_false] at h
      simp only [List.isPrefixOf, Bool.and_eq_true, beq_iff_eq] at h
      have hc : c = '\n' := h.1.symm
      have hhead : (sub6 fuel cs).head? = some '\n' := nl1_head h.2
      rw [sub6_head?] at hhead
      cases cs with
      | nil => simp at hhead
      | cons d ds =>
        have hd : d = '\n' := by
          simp only [List.head?_cons, Option.some.injEq] at hhead
          exact hhead
        simp [List.isPrefixOf, hc, hd]

theorem sub6_no_nl3 : ∀ (fuel : Nat) (l : List Char),
    l.length ≤ fuel → hasNl3 (sub6 fuel l) = false := by
  intro fuel
  induction fuel with
  | zero =>
    intro l hl
    have : l = [] := List.length_eq_zero.mp (Nat.le_zero.mp hl)
    subst this
    rfl
  | succ fuel ih =>
    intro l hl
    match l with
    | [] => rfl
    | c :: cs =>
      have hcs : cs.length ≤ fuel := Nat.succ_le_succ_iff.mp hl
      by_cases hcond : c = '\n' ∧ (['\n', '\n'].isPrefixOf cs) = true
      · simp only [sub6, hcond, and_self, if_true]
        have hdrop : (dropNl cs).length ≤ fuel := le_trans (dropWhileB_length cs) hcs
        have iht : hasNl3 (sub6 fuel (dropNl cs)) = false := ih _ hdrop
        have ht_head : (sub6 fuel (dropNl cs)).head? ≠ some '\n' := by
          rw [sub6_head?]
          intro e
          have := head?_dropWhileB e
          simp [nlChar] at this
        obtain ⟨h1, h2⟩ := head_not_nl ht_head
        simp [hasNl3, List.isPrefixOf, h1, h2, iht]
      · simp only [sub6, hcond, if_false]
        have iht : hasNl3 (sub6 fuel cs) = false := ih _ hcs
        have hpre : (['\n', '\n', '\n'].isPrefixOf (c :: sub6 fuel cs)) = false := by
          by_cases hc : c = '\n'
          · subst hc
            have hnl2 : (['\n', '\n'].isPrefixOf (sub6 fuel cs)) = false := by
              by_cases hp : (['\n', '\n'].isPrefixOf (sub6 fuel cs)) = true
              · exact absurd ⟨rfl, sub6_nl2 fuel cs hp⟩ hcond
              · exact Bool.eq_false_iff.mpr hp
            simp [List.isPrefixOf, hnl2]
          · have hbc : ('\n' == c) = false := beq_eq_false_iff_ne.mpr (fun e => hc e.symm)
            simp [List.isPrefixOf, hbc]
        simp [hasNl3, hpre, iht]

/-! ### The opening-fence removal acts at any position -/

theorem isPrefixOf_self_append : ∀ (p t : List Char), (p.isPrefixOf (p ++ t)) = true := by
  intro p
  induction p with
  | nil => intro t; cases t <;> rfl
  | cons c cs ih => intro t; simp [List.isPrefixOf, ih]

theorem sub1_fence_step (fuel : Nat) (b : List Char) :
    sub1 (fuel + 1) (fenceHtml ++ b) = sub1 fuel (dropWsL b) := by
  have hpre : (fenceHtml.isPrefixOf ('`' :: '`' :: '`' :: 'h' :: 't' :: 'm' :: 'l' :: b)) = true :=
    isPrefixOf_self_append fenceHtml b
  show sub1 (fuel + 1) ('`' :: ('`' :: '`' :: 'h' :: 't' :: 'm' :: 'l' :: b)) =
    sub1 fuel (dropWsL b)
  simp only [sub1]
  rw [if_pos hpre]
  rfl

theorem sub1_clean_append : ∀ (fuel : Nat) (a b : List Char),
    a.length < fuel → (∀ x ∈ a, x ≠ '`') → (∀ x ∈ b, x ≠ '`') →
    sub1 fuel (a ++ (fenceHtml ++ b)) = a ++ dropWsL b := by
  intro fuel
  induction fuel with
  | zero => intro a b h _ _; cases h
  | succ fuel ih =>
    intro a b h ha hb
    match a with
    | [] =>
      simp only [List.nil_append]
      rw [sub1_fence_step]
      exact sub1_id fuel _ (fun x hx => hb x (dropWhileB_mem hx))
    | c :: a2 =>
      have hc : c ≠ '`' := ha c (List.mem_cons_self c a2)
      have hpre : (fenceHtml.isPrefixOf (c :: (a2 ++ (fenceHtml ++ b)))) = false :=
        isPrefixOf_cons_ne _ _ hc
      simp only [List.cons_append, sub1, List.append_eq, hpre, Bool.false_eq_true, if_false,
        List.cons.injEq, true_and]
      have hlen : a2.length < fuel := by
        simp only [List.length_cons] at h
        omega
      exact ih a2 b hlen (fun x hx => ha x (List.mem_cons_of_mem c hx)) hb

/-! ### Slugification lemmas -/

theorem pySpace_chars {c : Char} (h : pySpace c = true) :
    c = ' ' ∨ c = '\t' ∨ c = '\n' ∨ c = '\r' ∨ c = '\x0b' ∨ c = '\x0c' := by
  simp only [pySpace, Bool.or_eq_true, beq_iff_eq] at h
  tauto

theorem word_ne_hyph {c : Char} (h : wordChar c = true) : c ≠ '-' := by
  intro e
  rw [e] at h
  exact absurd h (by decide)

theorem word_not_run {c : Char} (h : wordChar c = true) : runChar c = false := by
  have h2 : pySpace c = false := by
    by_cases hp : pySpace c = true
    · rcases pySpace_chars hp with e | e | e | e | e | e <;> rw [e] at h <;>
        exact absurd h (by decide)
    · exact Bool.eq_false_iff.mpr hp
  simp [runChar, h2, beq_eq_false_iff_ne.mpr (word_ne_hyph h)]

theorem keepChar_of_word {c : Char} (h : wordChar c = true) : keepChar c = true := by
  simp [keepChar, h]

theorem keep_not_run_word {c : Char} (hk : keepChar c = true) (hr : runChar c = false) :
    wordChar c = true := by
  simp only [runChar, Bool.or_eq_false_iff] at hr
  simp only [keepChar, Bool.or_eq_true] at hk
  rcases hk with (hw | hs) | hh
  · exact hw
  · rw [hs] at hr
    cases hr.2
  · rw [hh] at hr
    cases hr.1

theorem collapseRuns_chars : ∀ (fuel : Nat) (l : List Char), l.length ≤ fuel →
    ∀ c ∈ collapseRuns fuel l, c = '-' ∨ (c ∈ l ∧ runChar c = false) := by
  intro fuel
  induction fuel with
  | zero =>
    intro l hl c hc
    rw [List.length_eq_zero.mp (Nat.le_zero.mp hl)] at hc
    cases hc
  | succ fuel ih =>
    intro l hl c hc
    match l with
    | [] => cases hc
    | x :: xs =>
      have hxs : xs.length ≤ fuel := Nat.succ_le_succ_iff.mp hl
      by_cases hx : runChar x = true
      · simp only [collapseRuns, hx, if_true] at hc
        rcases List.mem_cons.mp hc with rfl | hc2
        · left; rfl
        · rcases ih (dropRun xs) (le_trans (dropWhileB_length xs) hxs) c hc2 with h | ⟨hm, hrn⟩
          · left; exact h
          · right; exact ⟨List.mem_cons_of_mem x (dropWhileB_mem hm), hrn⟩
      · simp only [collapseRuns, hx, Bool.false_eq_true, if_false] at hc
        rcases List.mem_cons.mp hc with rfl | hc2
        · right; exact ⟨List.mem_cons_self c xs, Bool.eq_false_iff.mpr hx⟩
        · rcases ih xs hxs c hc2 with h | ⟨hm, hrn⟩
          · left; exact h
          · right; exact ⟨List.mem_cons_of_mem x hm, hrn⟩

theorem collapseRuns_mem_keep : ∀ (fuel : Nat) (l : List Char) (c : Char),
    runChar c = false → c ∈ l → c ∈ collapseRuns fuel l := by
  intro fuel
  induction fuel with
  | zero => intro l c _ h; exact h
  | succ fuel ih =>
    intro l c hrc h
    match l with
    | [] => cases h
    | x :: xs =>
      by_cases hx : runChar x = true
      · simp only [collapseRuns, hx, if_true]
        have hne : c ≠ x := by
          intro e
          rw [e] at hrc
          rw [hx] at hrc
          cases hrc
        have hmem : c ∈ xs := List.mem_of_ne_of_mem hne h
        exact List.mem_cons_of_mem _ (ih _ _ hrc (mem_dropWhileB hrc hmem))
      · simp only [collapseRuns, hx, Bool.false_eq_true, if_false]
        rcases List.mem_cons.mp h with rfl | h2
        · exact List.mem_cons_self c (collapseRuns fuel xs)
        · exact List.mem_cons_of_mem x (ih xs c hrc h2)

theorem stripHyphens_mem {c : Char} (hc : c ≠ '-') :
    ∀ {l : List Char}, c ∈ l → c ∈ stripHyphens l := by
  intro l h
  unfold stripHyphens
  have hb : hyphChar c = false := by
    simp [hyphChar, beq_eq_false_iff_ne.mpr hc]
  rw [List.mem_reverse]
  apply mem_dropWhileB hb
  rw [List.mem_reverse]
  exact mem_dropWhileB hb h

theorem stripHyphens_subset {c : Char} : ∀ {l : List Char}, c ∈ stripHyphens l → c ∈ l := by
  intro l h
  unfold stripHyphens at h
  rw [List.mem_reverse] at h
  have h2 := dropWhileB_mem h
  rw [List.mem_reverse] at h2
  exact dropWhileB_mem h2

/-! ### Lemmas about the generation loop -/

theorem isPrefixOf_nil_left : ∀ (t : List Char), (([] : List Char).isPrefixOf t) = true := by
  intro t
  cases t <;> rfl

theorem isPrefixOf_extend : ∀ (p t u : List Char),
    (p.isPrefixOf t) = true → (p.isPrefixOf (t ++ u)) = true := by
  intro p
  induction p with
  | nil => intro t u _; exact isPrefixOf_nil_left _
  | cons c cs ih =>
    intro t u h
    cases t with
    | nil => simp [List.isPrefixOf] at h
    | cons x xs =>
      simp only [List.isPrefixOf, Bool.and_eq_true] at h
      simp only [List.cons_append, List.isPrefixOf, Bool.and_eq_true]
      exact ⟨h.1, ih xs u h.2⟩

theorem isInfixOfB_nil_pat : ∀ (u : List Char), isInfixOfB [] u = true := by
  intro u
  cases u with
  | nil => rfl
  | cons c cs => simp [isInfixOfB, isPrefixOf_nil_left]

theorem isInfixOfB_extend : ∀ (t pat u : List Char),
    isInfixOfB pat t = true → isInfixOfB pat (t ++ u) = true := by
  intro t
  induction t with
  | nil =>
    intro pat u h
    simp only [isInfixOfB, List.isEmpty_iff] at h
    subst h
    exact isInfixOfB_nil_pat u
  | cons x xs ih =>
    intro pat u h
    simp only [isInfixOfB, Bool.or_eq_true] at h
    simp only [List.cons_append, isInfixOfB, Bool.or_eq_true]
    rcases h with h | h
    · left
      have h2 := isPrefixOf_extend pat (x :: xs) u h
      simpa [List.cons_append] using h2
    · right
      exact ih pat u h

theorem processedContent_hasStyle (r : String) :
    isInfixOfB "<style>".data (processedContent r).data = true := by
  simp only [processedContent]
  by_cases h : isInfixOfB "<style>".data (preprocess_content r).data = true
  · rw [if_pos h]
    exact h
  · rw [if_neg h, String.data_append]
    exact isInfixOfB_extend _ _ _ (by decide)

theorem attemptOnce_accept {r c : String} (h : attemptOnce r = AttemptResult.accept c) :
    c = processedContent r ∧ 20 ≤ backlinkCount (processedContent r) := by
  unfold attemptOnce at h
  by_cases hlt : backlinkCount (processedContent r) < 20
  · rw [if_pos hlt] at h
    cases h
  · rw [if_neg hlt] at h
    injection h with h1
    exact ⟨h1.symm, Nat.le_of_not_lt hlt⟩

theorem generate_blog_style : ∀ (fuel : Nat) (send : Nat → Except String String)
    (i : Nat) (c : String),
    generate_blog send fuel i = some c → isInfixOfB "<style>".data c.data = true := by
  intro fuel
  induction fuel with
  | zero => intro send i c h; cases h
  | succ fuel ih =>
    intro send i c h
    simp only [generate_blog] at h
    cases hs : send i with
    | error e =>
      simp only [hs] at h
      simp at h
    | ok text =>
      simp only [hs] at h
      cases ha : attemptOnce text with
      | accept c2 =>
        simp only [ha, Option.some.injEq] at h
        rcases attemptOnce_accept ha with ⟨hc2, _⟩
        rw [← h, hc2]
        exact processedContent_hasStyle text
      | regenerate =>
        simp only [ha] at h
        exact ih send (i + 1) c h

set_option maxRecDepth 40000 in
theorem attemptOnce_empty : attemptOnce "" = AttemptResult.regenerate := by decide

theorem generate_blog_allfail : ∀ (fuel i : Nat),
    generate_blog (fun _ => Except.ok "") fuel i = none := by
  intro fuel
  induction fuel with
  | zero => intro i; rfl
  | succ fuel ih =>
    intro i
    simp only [generate_blog, attemptOnce_empty]
    exact ih (i + 1)

theorem generateBlogRequests_allfail : ∀ (fuel i : Nat),
    generateBlogRequests (fun _ => "") fuel i = fuel := by
  intro fuel
  induction fuel with
  | zero => intro i; rfl
  | succ fuel ih =>
    intro i
    simp only [generateBlogRequests, attemptOnce_empty]
    rw [ih (i + 1)]
    omega

/-! ### Claim theorems -/

set_option maxRecDepth 200000

/-- Claim C1: the validation gate of `generate_blog` (line 116) accepts the
processed content (returns it) exactly when the backlink count is at least
20; in particular `content19`, whose processed form has exactly 19
occurrences, triggers regeneration, and `content20`, with exactly 20,
is accepted. -/
theorem c1_backlink_gate :
    (∀ r : String,
      (attemptOnce r = AttemptResult.accept (processedContent r) ↔
        20 ≤ backlinkCount (processedContent r)) ∧
      (attemptOnce r = AttemptResult.regenerate ↔
        backlinkCount (processedContent r) < 20)) ∧
    processedContent content19 = content19 ∧ backlinkCount content19 = 19 ∧
    attemptOnce content19 = AttemptResult.regenerate ∧
    processedContent content20 = content20 ∧ backlinkCount content20 = 20 ∧
    attemptOnce content20 = AttemptResult.accept content20 := by
  refine ⟨fun r => ⟨⟨?_, ?_⟩, ⟨?_, ?_⟩⟩, by decide, by decide, by decide, by decide, by decide,
    by decide⟩
  · intro h
    exact (attemptOnce_accept h).2
  · intro h
    unfold attemptOnce
    rw [if_neg (Nat.not_lt.mpr h)]
  · intro h
    by_cases hlt : backlinkCount (processedContent r) < 20
    · exact hlt
    · unfold attemptOnce at h
      rw [if_neg hlt] at h
      cases h
  · intro h
    unfold attemptOnce
    rw [if_pos h]

/-- Claim C2: the regeneration retry in `generate_blog` is unbounded: for
every `n` there is a sequence of model responses, each failing the backlink
check, under which more than `n` requests are issued for the same title and
the call does not return for any amount of fuel. -/
theorem c2_unbounded_retry : ∀ n : Nat, ∃ resp : Nat → String,
    (∀ fuel i : Nat, generate_blog (fun j => Except.ok (resp j)) fuel i = none) ∧
    generateBlogRequests resp (n + 1) 0 = n + 1 ∧ n < n + 1 := by
  intro n
  exact ⟨fun _ => "", fun fuel i => generate_blog_allfail fuel i,
    generateBlogRequests_allfail (n + 1) 0, Nat.lt_succ_self n⟩

/-- Claim C3 counterexample: `preprocess_content` is not idempotent — the
fixed-entity unescaping exposes a new entity, so a second application keeps
rewriting. -/
theorem c3_not_idempotent_cex :
    preprocess_content (preprocess_content "&amp;amp;") ≠ preprocess_content "&amp;amp;" := by
  decide

/-- Claim C3 (amended): running the preprocessor twice yields the same
result whenever the first run's output has no residual rewrite material
(none of the characters that can start a rule, no triple newline, no outer
whitespace); unrestricted idempotence is refuted by the counterexample. -/
theorem c3_idempotent_on_stable (s : String)
    (h : preprocessStable (preprocess_content s).data = true) :
    preprocess_content (preprocess_content s) = preprocess_content s := by
  show String.mk (preprocessL (preprocess_content s).data) = preprocess_content s
  rw [preprocessL_fixed h]

theorem c3_idempotent_on_stable_witness :
    preprocessStable (preprocess_content "hello").data = true ∧
    preprocess_content (preprocess_content "hello") = preprocess_content "hello" :=
  ⟨by decide, c3_idempotent_on_stable "hello" (by decide)⟩

/-- Claim C4 counterexample: this input contains a run of three newlines,
yet the `preprocess_content` output still contains three consecutive
newlines — the list-marker removal of line 62 recreates a run after the
collapse of line 59. -/
theorem c4_newlines_cex :
    hasNl3 "a\n\n\n- \n\nx".data = true ∧
    hasNl3 (preprocess_content "a\n\n\n- \n\nx").data = true := by
  constructor <;> decide

/-- Claim C4 (amended): the newline-collapsing stage itself (line 59)
leaves no run of three consecutive newlines; the bound holds of that
stage's output, but a later stage may reintroduce such a run into the
final output. -/
theorem c4_collapse_no_triple (l : List Char) : hasNl3 (stage8 l) = false :=
  sub6_no_nl3 l.length l (le_refl _)

/-- Claim C5 counterexample: the fence-stripping transformation removes an
occurrence of the opening fence that is neither at the start nor at the
end of the document, so such occurrences are not left in place. -/
theorem c5_fence_cex :
    fenceStrip "x ```html y" = "x y" ∧ fenceStrip "x ```html y" ≠ "x ```html y" := by
  constructor <;> decide

/-- Claim C5 (amended): the first transformation removes every occurrence
of the opening fence together with the whitespace after it, wherever the
occurrence sits in the document. -/
theorem c5_fence_removal_global (a b : List Char)
    (ha : ∀ x ∈ a, x ≠ '`') (hb : ∀ x ∈ b, x ≠ '`') :
    fenceStripL (a ++ (fenceHtml ++ b)) = a ++ dropWsL b := by
  unfold fenceStripL stage2 stage1
  have hlen : a.length < (a ++ (fenceHtml ++ b)).length := by
    have h7 : fenceHtml.length = 7 := rfl
    simp only [List.length_append, h7]
    omega
  rw [sub1_clean_append _ a b hlen ha hb]
  apply sub2_id
  intro x hx
  rcases List.mem_append.mp hx with h | h
  · exact ha x h
  · exact hb x (dropWhileB_mem h)

theorem c5_fence_removal_global_witness :
    (∀ x ∈ "x ".data, x ≠ '`') ∧ (∀ x ∈ " y".data, x ≠ '`') ∧
    fenceStripL ("x ".data ++ (fenceHtml ++ " y".data)) = "x ".data ++ dropWsL " y".data :=
  ⟨by decide, by decide, c5_fence_removal_global "x ".data " y".data (by decide) (by decide)⟩

/-- Claim C6: slugification sends `"Top 10 Tips: A/B!"` to
`"Top-10-Tips-AB"`, and for every title containing at least one word
character the slug is non-empty and made only of word characters and
hyphens. -/
theorem c6_slugify :
    slugify "Top 10 Tips: A/B!" = "Top-10-Tips-AB" ∧
    ∀ t : String, (∃ c ∈ t.data, wordChar c = true) →
      slugify t ≠ "" ∧ ∀ c ∈ (slugify t).data, wordChar c = true ∨ c = '-' := by
  constructor
  · decide
  · intro t h
    obtain ⟨w, hw, hword⟩ := h
    have hkeep : w ∈ t.data.filter keepChar := List.mem_filter.mpr ⟨hw, keepChar_of_word hword⟩
    have hrun : runChar w = false := word_not_run hword
    have hcoll : w ∈ collapseRuns (t.data.filter keepChar).length (t.data.filter keepChar) :=
      collapseRuns_mem_keep _ _ _ hrun hkeep
    have hstrip : w ∈ (slugify t).data := stripHyphens_mem (word_ne_hyph hword) hcoll
    constructor
    · intro e
      rw [e] at hstrip
      cases hstrip
    · intro c hc
      have hc3 := stripHyphens_subset hc
      rcases collapseRuns_chars _ _ (le_refl _) c hc3 with h1 | ⟨hm, hrn⟩
      · right
        exact h1
      · left
        exact keep_not_run_word (List.mem_filter.mp hm).2 hrn

theorem c6_slugify_witness :
    (∃ c ∈ ("Top 10 Tips: A/B!" : String).data, wordChar c = true) ∧
    (slugify "Top 10 Tips: A/B!" ≠ "" ∧
      ∀ c ∈ (slugify "Top 10 Tips: A/B!").data, wordChar c = true ∨ c = '-') :=
  ⟨by decide, c6_slugify.2 "Top 10 Tips: A/B!" (by decide)⟩

/-- Claim C7: every string returned by `generate_blog` contains the
substring `<style>` — the default stylesheet is prepended whenever the
preprocessed response lacks one. -/
theorem c7_style_always (send : Nat → Except String String) (fuel i : Nat) (c : String)
    (h : generate_blog send fuel i = some c) : isInfixOfB "<style>".data c.data = true :=
  generate_blog_style fuel send i c h

theorem c7_style_always_witness :
    generate_blog (fun _ => Except.ok content20) 1 0 = some content20 ∧
    isInfixOfB "<style>".data content20.data = true := by
  have h : generate_blog (fun _ => Except.ok content20) 1 0 = some content20 := by decide
  exact ⟨h, c7_style_always (fun _ => Except.ok content20) 1 0 content20 h⟩

/-- Claim C8: an exception in a generation step makes `generate_blog`
return `none` instead of propagating, and the loop in `main` then skips
the write for that title and continues with the remaining titles. -/
theorem c8_error_handling :
    (∀ (send : Nat → Except String String) (fuel i : Nat) (e : String),
      send i = Except.error e → generate_blog send (fuel + 1) i = none) ∧
    (∀ (gen : String → Option String) (t : String) (ts : List String),
      gen (stripStr t) = none → mainWrites gen (t :: ts) = mainWrites gen ts) := by
  constructor
  · intro send fuel i e h
    simp only [generate_blog, h]
  · intro gen t ts h
    by_cases ht : stripStr t = ""
    · simp [mainWrites, ht]
    · simp [mainWrites, ht, h]

theorem c8_error_handling_witness :
    generate_blog (fun _ => Except.error "boom") 1 0 = none ∧
    mainWrites (fun _ => none) ["T", "U"] = mainWrites (fun _ => none) ["U"] :=
  ⟨c8_error_handling.1 (fun _ => Except.error "boom") 0 0 "boom" rfl,
   c8_error_handling.2 (fun _ => none) "T" ["U"] rfl⟩

/-- Claim C9 counterexample: two distinct titles processed in the same run
write to the same `<slug>.html` path (the second write overwrites the
first). -/
theorem c9_collision_cex :
    mainWrites (fun _ => some "X") ["A B", "A-B"] =
      [("Generated Blogs/A-B.html", "X"), ("Generated Blogs/A-B.html", "X")] ∧
    ("A B" : String) ≠ "A-B" := by
  constructor <;> decide

/-- Claim C9 (amended): a write path is determined exactly by the slug, so
two titles write the same file precisely when their slugs coincide — and
distinct titles can share a slug. -/
theorem c9_path_iff_slug (t1 t2 : String) :
    savePath t1 = savePath t2 ↔ slugify t1 = slugify t2 := by
  constructor
  · intro h
    have hd : "Generated Blogs/".data ++ ((slugify t1).data ++ ".html".data) =
        "Generated Blogs/".data ++ ((slugify t2).data ++ ".html".data) := by
      have h2 := congrArg String.data h
      simpa [savePath, List.append_assoc] using h2
    have h3 := List.append_cancel_right (List.append_cancel_left hd)
    exact congrArg String.mk h3
  · intro h
    unfold savePath
    rw [h]

/-- Claim C10: a title with no word character, whitespace or hyphen slugs
to the empty string, and `save_blog` still writes the content, to the file
`.html` inside the output directory. -/
theorem c10_empty_slug (t content : String)
    (h : ∀ c ∈ t.data, keepChar c = false) :
    slugify t = "" ∧ save_blog t content = ("Generated Blogs/.html", content) := by
  have hfil : t.data.filter keepChar = [] :=
    List.filter_eq_nil_iff.mpr (fun a ha => by simp [h a ha])
  have hslug : slugify t = "" := by
    unfold slugify
    rw [hfil]
    rfl
  have hpath : savePath t = "Generated Blogs/.html" := by
    unfold savePath
    rw [hslug]
    rfl
  refine ⟨hslug, ?_⟩
  unfold save_blog
  rw [hpath]

theorem c10_empty_slug_witness :
    (∀ c ∈ ("!!!" : String).data, keepChar c = false) ∧
    (slugify "!!!" = "" ∧ save_blog "!!!" "body" = ("Generated Blogs/.html", "body")) :=
  ⟨by decide, c10_empty_slug "!!!" "body" (by decide)⟩
